import Mathlib

/-!
Verification of the styled-system-dark-mode library (src/index.js, src/utils.js).

JavaScript objects are modelled as insertion-ordered association lists
`List (String × α)`; `jsSet` models `{ ...accum, [key]: v }` (replace in place
when the key exists, append otherwise) and `jsSpread` models object spread.
Strings are modelled on Unicode scalar values (JS works on UTF-16 units).
`toLowerCase` is modelled on ASCII only; every theorem whose truth depends on
lowercasing therefore restricts keys to ASCII characters (`goodChar`,
`asciiKeysB`), where the model provably coincides with JS.
-/

/-- Model of the JS object update `{ ...l, [k]: v }`: if `k` is already a key,
its first binding is replaced in place; otherwise `(k, v)` is appended. -/
def jsSet {α : Type} : List (String × α) → String → α → List (String × α)
  | [], k, v => [(k, v)]
  | (k', v') :: rest, k, v =>
    if k' = k then (k, v) :: rest else (k', v') :: jsSet rest k v

/-- Model of JS property read `l[k]` on an object: value of the first binding. -/
def jsGet {α : Type} : List (String × α) → String → Option α
  | [], _ => none
  | (k', v) :: rest, k => if k' = k then some v else jsGet rest k

/-- Whether an object has the key `k` (`k in l`). -/
def hasKey {α : Type} (k : String) : List (String × α) → Bool
  | [] => false
  | (k', _) :: rest => k' = k || hasKey k rest

/-- Model of the JS object spread `{ ...a, ...b }` (for `a` already an
object's entry list): every entry of `b` is written over `a` in order. -/
def jsSpread {α : Type} (a b : List (String × α)) : List (String × α) :=
  b.foldl (fun acc kv => jsSet acc kv.1 kv.2) a

/-- Model of a two-spread object literal `{ ...a, ...b }` built from scratch. -/
def objLit2 {α : Type} (a b : List (String × α)) : List (String × α) :=
  jsSpread (jsSpread [] a) b

/-- Characters matched by the regex class `[A-Z_ ]` in `jsNameToCssName`. -/
def isBoundaryChar (c : Char) : Bool :=
  ('A' ≤ c && c ≤ 'Z') || c == '_' || c == ' '

/-- ASCII model of `String.prototype.toLowerCase` on one character: JS also
lowercases non-ASCII uppercase letters (e.g. É to é), so theorems that
depend on lowercasing restrict keys to ASCII, where this model agrees with
JS character for character. -/
def jsToLowerChar (c : Char) : Char :=
  if 'A' ≤ c ∧ c ≤ 'Z' then Char.ofNat (c.toNat + 32) else c

/-- Worker for the lookahead split `name.split(/(?=[A-Z_ ])/g)`: a new segment
starts before every boundary character except at position 0. -/
def splitGo (cur : List Char) : List Char → List (List Char)
  | [] => [cur]
  | c :: cs =>
    if isBoundaryChar c then cur :: splitGo [c] cs else splitGo (cur ++ [c]) cs

/-- Model of `name.split(/(?=[A-Z_ ])/g)` on the character list: the boundary
character stays with the following segment; no split at position 0; the empty
string splits to one empty segment. -/
def lookaheadSplit : List Char → List (List Char)
  | [] => [[]]
  | c :: cs => splitGo [c] cs

/-- Model of `segments.join('-')` at the character level. -/
def joinSegs : List (List Char) → List Char
  | [] => []
  | [a] => a
  | a :: rest => a ++ '-' :: joinSegs rest

/-- Source: `const jsNameToCssName = (name) =>
name.split(/(?=[A-Z_ ])/g).join('-').toLowerCase();` (src/utils.js line 7). -/
def jsNameToCssName (name : String) : String :=
  ⟨(joinSegs (lookaheadSplit name.data)).map jsToLowerChar⟩

/-- A ThemeTree value: a string leaf or a nested object of further values.
A JS theme object is a `List (String × ThemeTree)` in insertion order. -/
inductive ThemeTree where
  | leaf (s : String)
  | node (entries : List (String × ThemeTree))

/-- A node produced by `makeObjectVariables`: the JS object
`{ value, var, refVar }` where `value` is a string or a nested object. -/
inductive VarNode where
  | strNode (value : String) (varName : String) (refVar : String)
  | objNode (value : List (String × VarNode)) (varName : String) (refVar : String)

/-- The `var` field of a node from `makeObjectVariables`. -/
def VarNode.varOf : VarNode → String
  | .strNode _ v _ => v
  | .objNode _ v _ => v

/-- The `name` computed for one key by `makeObjectVariables`:
`prefixStr + jsNameToCssName(key) + suffixStr`, where the prefix/suffix
pieces are added only when truthy. -/
def mkovName (pre suf key : String) : String :=
  (if pre ≠ "" then pre ++ "-" else "")
    ++ jsNameToCssName key
    ++ (if suf ≠ "" then "-" ++ suf else "")

mutual

/-- Worker for `makeObjectVariables` (src/utils.js lines 19-33): the
`reduce` over `Object.keys(obj)` with accumulator `accum`.  The `undefined`
prefix/suffix of the top-level call is modelled as `""`; JS treats both as
falsy in `prefix ? \x7bprefix\x7d- : ''`, so the two are indistinguishable. -/
def mkovGo (pre suf : String) (accum : List (String × VarNode)) :
    List (String × ThemeTree) → List (String × VarNode)
  | [] => accum
  | (key, v) :: rest =>
    mkovGo pre suf (jsSet accum key (mkovNode pre suf key v)) rest
termination_by l => sizeOf l

/-- The `\x7b value, var, refVar \x7d` object built by `makeObjectVariables`
for one key: a string value is kept, a nested object recurses with the raw
key folded into the prefix. -/
def mkovNode (pre suf key : String) : ThemeTree → VarNode
  | .leaf s =>
    .strNode s ("--" ++ mkovName pre suf key)
      ("var(--" ++ mkovName pre suf key ++ ")")
  | .node sub =>
    .objNode (mkovGo ((if pre ≠ "" then pre ++ "-" else "") ++ key) suf [] sub)
      ("--" ++ mkovName pre suf key)
      ("var(--" ++ mkovName pre suf key ++ ")")
termination_by v => sizeOf v

end

/-- Source: `makeObjectVariables` (src/utils.js lines 19-33). -/
def makeObjectVariables (obj : List (String × ThemeTree)) (pre suf : String) :
    List (String × VarNode) :=
  mkovGo pre suf [] obj

mutual

/-- Worker for `varColorMap` (src/utils.js lines 41-48): keys the output by
the generated `var` name. -/
def vcmGo (accum : List (String × ThemeTree)) :
    List (String × VarNode) → List (String × ThemeTree)
  | [] => accum
  | (_, n) :: rest => vcmGo (jsSet accum n.varOf (vcmVal n)) rest
termination_by l => sizeOf l

/-- The value `varColorMap` stores for one node: string values stay,
objects recurse. -/
def vcmVal : VarNode → ThemeTree
  | .strNode v _ _ => .leaf v
  | .objNode sub _ _ => .node (vcmGo [] sub)
termination_by n => sizeOf n

end

/-- Source: `varColorMap` (src/utils.js lines 41-48). -/
def varColorMap (obj : List (String × VarNode)) : List (String × ThemeTree) :=
  vcmGo [] obj

mutual

/-- Worker for `keyVarMap` (src/utils.js lines 56-60): keys the output by
the original key. -/
def kvmGo (accum : List (String × ThemeTree)) :
    List (String × VarNode) → List (String × ThemeTree)
  | [] => accum
  | (key, n) :: rest => kvmGo (jsSet accum key (kvmVal n)) rest
termination_by l => sizeOf l

/-- The value `keyVarMap` stores for one node: leaves become the `refVar`
reference, objects recurse. -/
def kvmVal : VarNode → ThemeTree
  | .strNode _ _ r => .leaf r
  | .objNode sub _ _ => .node (kvmGo [] sub)
termination_by n => sizeOf n

end

/-- Source: `keyVarMap` (src/utils.js lines 56-60). -/
def keyVarMap (obj : List (String × VarNode)) : List (String × ThemeTree) :=
  kvmGo [] obj

/-- Worker for `treeWalk` (src/utils.js lines 68-72): flattens every leaf of
a nested object into the accumulator via object spread. -/
def twGo (accum : List (String × String)) :
    List (String × ThemeTree) → List (String × String)
  | [] => accum
  | (key, .leaf s) :: rest => twGo (jsSet accum key s) rest
  | (key, .node sub) :: rest => twGo (jsSpread accum (twGo [] sub)) rest

/-- Source: `treeWalk` (src/utils.js lines 68-72). -/
def treeWalk (obj : List (String × ThemeTree)) : List (String × String) :=
  twGo [] obj

/-- Source: `objectToCss` (src/utils.js lines 80-83): one `key: value;` line
per entry, newline-joined.  The intermediate `{property, value}` record of
the source's first `.map` is inlined. -/
def objectToCss (obj : List (String × String)) : String :=
  String.intercalate "\n" (obj.map (fun kv => kv.1 ++ ": " ++ kv.2 ++ ";"))

/-- Model of `s.substring(a, b)` in JS: both indices are clamped to the
string length and swapped if out of order; negative arguments cannot arise
here because `value.length - 1` is already truncated subtraction in Lean. -/
def jsSubstring (s : String) (a b : Nat) : String :=
  let a' := min a s.length
  let b' := min b s.length
  ⟨(s.data.take (max a' b')).drop (min a' b')⟩

/-- Source: `resolveFactory` (src/index.js lines 27-36).  The ambient browser
environment is modelled by `window : Option (String → String)`: `none` is
`typeof window === 'undefined'`, and `some getComputed` models
`window.getComputedStyle(window.document.documentElement).getPropertyValue`.
The result is `Option String` because `defaultVars[lookupVal]` may be
`undefined`. -/
def resolveFactory (defaultVars : List (String × String))
    (window : Option (String → String)) (value : String) : Option String :=
  if jsSubstring value 0 5 ≠ "var(--" then some value
  else
    let lookupVal := jsSubstring value 4 (value.length - 1)
    match window with
    | none => jsGet defaultVars lookupVal
    | some getPropertyValue => some (getPropertyValue lookupVal)

/-- The object returned by the default export.  `DarkModeProvider` is a React
component rendering a `<style>` element with the captured `css` string and
then the children; only the captured string is modelled. -/
structure MakeDarkModeResult where
  vars : List (String × ThemeTree)
  css : String
  resolve : Option (String → String) → String → Option String
  darkModeProviderCss : String

/-- Source: the default export (src/index.js lines 47-64).  A missing `dark`
or `light` argument (`dark || \x7b\x7d`) is modelled by passing `[]`. -/
def defaultExport (dark light : List (String × ThemeTree)) : MakeDarkModeResult :=
  let darkModeVars := makeObjectVariables dark "" ""
  let lightModeVars := makeObjectVariables light "" ""
  let vars := objLit2 (keyVarMap darkModeVars) (keyVarMap lightModeVars)
  let darkModeCss := objectToCss (treeWalk (varColorMap darkModeVars))
  let lightModeCss := objectToCss (treeWalk (varColorMap lightModeVars))
  let css := ":root \x7b " ++ lightModeCss ++ " \x7d"
    ++ "@media (prefers-color-scheme: dark)\x7b :root \x7b " ++ darkModeCss ++ " \x7d \x7d"
  { vars := vars
    css := css
    resolve := resolveFactory (treeWalk (varColorMap lightModeVars))
    darkModeProviderCss := css }

/-- An untyped JavaScript value as handled by `mergeThemes`: a string, a
number, an object (ordered entry list), or `undefined`. -/
inductive JSVal where
  | vstr (s : String)
  | vnum (n : Int)
  | vobj (entries : List (String × JSVal))
  | vundef

/-- JS truthiness of a `JSVal`. -/
def JSVal.truthy : JSVal → Bool
  | .vstr s => s ≠ ""
  | .vnum n => n ≠ 0
  | .vobj _ => true
  | .vundef => false

/-- Model of `v instanceof Object` for the values representable here. -/
def JSVal.isObj : JSVal → Bool
  | .vobj _ => true
  | _ => false

/-- The one runtime error the embedding can produce: a `TypeError` from
reading a property of `undefined`. -/
inductive JSError where
  | typeError

/-- Own enumerable entries contributed by a value under object spread:
objects give their entries, strings their indexed characters, numbers and
`undefined` nothing. -/
def spreadEntries : JSVal → List (String × JSVal)
  | .vobj l => l
  | .vstr s => s.data.enum.map (fun ic => (toString ic.1, JSVal.vstr ⟨[ic.2]⟩))
  | _ => []

/-- Model of the JS property read `v[k]`: throws a `TypeError` on
`undefined`, looks up object entries, gives strings their `length` and
indexed characters, and `undefined` for everything else. -/
def getProp : JSVal → String → Except JSError JSVal
  | .vobj l, k => .ok ((jsGet l k).getD .vundef)
  | .vundef, _ => .error .typeError
  | .vstr s, k =>
    if k = "length" then .ok (.vnum s.length)
    else .ok ((jsGet (spreadEntries (.vstr s)) k).getD .vundef)
  | .vnum _, _ => .ok .vundef

theorem jsGet_mem_snd {α : Type} (l : List (String × α)) (k : String) (v : α)
    (h : jsGet l k = some v) : v ∈ l.map Prod.snd := by
  induction l with
  | nil => simp [jsGet] at h
  | cons hd tl ih =>
    obtain ⟨k', v'⟩ := hd
    rw [jsGet] at h
    by_cases hk : k' = k
    · simp [hk] at h
      simp [h]
    · simp [hk] at h
      simp [ih h]

theorem jsGet_sizeOf {α : Type} [SizeOf α] (l : List (String × α)) (k : String)
    (v : α) (h : jsGet l k = some v) : sizeOf v < sizeOf l := by
  induction l with
  | nil => simp [jsGet] at h
  | cons hd tl ih =>
    obtain ⟨k', v'⟩ := hd
    rw [jsGet] at h
    by_cases hk : k' = k
    · simp [hk] at h
      subst h
      simp only [List.cons.sizeOf_spec, Prod.mk.sizeOf_spec]
      omega
    · simp [hk] at h
      have := ih h
      simp only [List.cons.sizeOf_spec]
      omega

theorem getProp_obj_sizeOf (v : JSVal) (k : String) (nv : JSVal)
    (h : getProp v k = .ok nv) (hObj : nv.isObj = true) : sizeOf nv < sizeOf v := by
  match v with
  | .vobj l =>
    rw [getProp] at h
    cases hg : jsGet l k with
    | none => rw [hg] at h; simp at h; subst h; simp [JSVal.isObj] at hObj
    | some w =>
      rw [hg] at h; simp at h; subst h
      have := jsGet_sizeOf l k w hg
      simp only [JSVal.vobj.sizeOf_spec]
      omega
  | .vstr s =>
    rw [getProp] at h
    by_cases hl : k = "length"
    · simp [hl] at h; subst h; simp [JSVal.isObj] at hObj
    · simp [hl] at h
      cases hg : jsGet (spreadEntries (.vstr s)) k with
      | none => rw [hg] at h; simp at h; subst h; simp [JSVal.isObj] at hObj
      | some w =>
        rw [hg] at h; simp at h; subst h
        have hmem := jsGet_mem_snd _ _ _ hg
        simp only [spreadEntries, List.map_map, List.mem_map] at hmem
        obtain ⟨ic, _, hw⟩ := hmem
        rw [← hw] at hObj
        simp [JSVal.isObj] at hObj
  | .vnum n => rw [getProp] at h; simp at h; subst h; simp [JSVal.isObj] at hObj
  | .vundef => rw [getProp] at h; simp at h

theorem isObj_truthy (v : JSVal) (h : v.isObj = true) : v.truthy = true := by
  cases v <;> simp_all [JSVal.isObj, JSVal.truthy]

mutual

/-- Source: `mergeThemes` (src/index.js lines 74-80).  The key list is
`Object.keys({ ...oldThemeObject, ...newThemeObject })`; the `reduce` body is
`mergeGo`.  Reading a property of an `undefined` old subtree raises a
`TypeError`, exactly as in JS. -/
def mergeThemes (oldT newT : JSVal) : Except JSError JSVal :=
  (mergeGo oldT newT []
      ((objLit2 (spreadEntries oldT) (spreadEntries newT)).map Prod.fst)).map
    JSVal.vobj
termination_by (2 * sizeOf newT + 2, 0)
decreasing_by
  apply Prod.Lex.left
  omega

/-- The `reduce` body of `mergeThemes`: for each key, if the new side's value
is an object, recurse on `mergeThemes(oldThemeObject[key],
newThemeObject[key] || \x7b\x7d)`, otherwise take
`newThemeObject[key] || oldThemeObject[key]` (the `||` short-circuits, so the
old side is only read when the new value is falsy). -/
def mergeGo (oldT newT : JSVal) (accum : List (String × JSVal)) :
    List String → Except JSError (List (String × JSVal))
  | [] => .ok accum
  | key :: rest =>
    match h : getProp newT key with
    | .error e => .error e
    | .ok nv =>
      if hObj : nv.isObj = true then
        match getProp oldT key with
        | .error e => .error e
        | .ok ov =>
          match mergeThemes ov (if nv.truthy then nv else .vobj []) with
          | .error e => .error e
          | .ok merged => mergeGo oldT newT (jsSet accum key merged) rest
      else
        match (if nv.truthy then .ok nv else getProp oldT key :
            Except JSError JSVal) with
        | .error e => .error e
        | .ok v => mergeGo oldT newT (jsSet accum key v) rest
termination_by ks => (2 * sizeOf newT + 1, ks.length)
decreasing_by
  · apply Prod.Lex.left
    have hlt := getProp_obj_sizeOf _ _ _ h hObj
    have ht := isObj_truthy nv hObj
    simp [ht]
    omega
  · apply Prod.Lex.right
    simp
  · apply Prod.Lex.right
    simp

end

theorem jsSubstring_zero_five_ne (value : String) :
    jsSubstring value 0 5 ≠ "var(--" := by
  intro h
  have h1 : (jsSubstring value 0 5).data.length ≤ 5 := by
    simp [jsSubstring]
  rw [h] at h1
  exact absurd h1 (by decide)

/-- C10: with no live rendering environment (no `window`), the `resolve`
function returned by the entry point is the identity (up to `some`) on every
input string: the recognition test compares the first five characters of the
input with the six-character literal `var(--`, which can never be equal, so
the fallback-lookup branch is unreachable. -/
theorem resolve_is_identity_without_window (dark light : List (String × ThemeTree))
    (value : String) :
    (defaultExport dark light).resolve none value = some value := by
  simp [defaultExport, resolveFactory, jsSubstring_zero_five_ne value]

/-- C9: a string that does not begin with the reference prefix `var(--` is
returned unchanged by `resolve`, in any rendering environment. -/
theorem resolve_passthrough_nonreference (dark light : List (String × ThemeTree))
    (window : Option (String → String)) (value : String)
    (h : "var(--".isPrefixOf value = false) :
    (defaultExport dark light).resolve window value = some value := by
  simp [defaultExport, resolveFactory, jsSubstring_zero_five_ne value]

/-- Witness for C9 at `resolve("black")` with the themes of the spec. -/
theorem resolve_passthrough_nonreference_witness :
    "var(--".isPrefixOf "black" = false ∧
    (defaultExport [("text", ThemeTree.leaf "white")]
        [("text", ThemeTree.leaf "black")]).resolve none "black" = some "black" :=
  ⟨by decide, resolve_passthrough_nonreference _ _ none "black" (by decide)⟩

/-- C1 (code bug): with `dark:\x7btext:"white"\x7d, light:\x7btext:"black"\x7d`
and no `window`, `resolve("var(--text)")` returns `"var(--text)"` unchanged,
not the precomputed light default `"black"`; the second conjunct shows the
fallback table the code builds does map `--text` to `"black"`, so the
documented lookup would have produced `"black"` had the prefix test been able
to succeed. -/
theorem resolve_fallback_code_bug :
    (defaultExport [("text", ThemeTree.leaf "white")]
        [("text", ThemeTree.leaf "black")]).resolve none "var(--text)" =
      some "var(--text)" ∧
    treeWalk (varColorMap
        (makeObjectVariables [("text", ThemeTree.leaf "black")] "" "")) =
      [("--text", "black")] := by
  constructor
  · simp [defaultExport, resolveFactory, jsSubstring_zero_five_ne "var(--text)"]
  · simp [makeObjectVariables, mkovGo, mkovNode, mkovName, varColorMap, vcmGo,
      vcmVal, treeWalk, twGo, jsSet, VarNode.varOf]
    decide

/-- Counterexample for C4: the source maps `bg_color` to `bg-_color` (the
underscore stays with the following segment), not to `bg-color`. -/
theorem jsNameToCssName_bg_color_counterexample :
    jsNameToCssName "bg_color" ≠ "bg-color" := by decide

/-- C4 (amended): `jsNameToCssName` splits before each uppercase letter,
underscore or space (the boundary character staying with the following
segment), joins with hyphens and lowercases; so `fontWeight` gives
`font-weight`, `bg_color` gives `bg-_color` (hyphen inserted, underscore
kept), and the empty string gives the empty string. -/
theorem jsNameToCssName_examples :
    jsNameToCssName "fontWeight" = "font-weight" ∧
    jsNameToCssName "bg_color" = "bg-_color" ∧
    jsNameToCssName "" = "" := by
  refine ⟨by decide, by decide, by decide⟩

/-- Keys of an entry list are pairwise distinct. -/
def nodupKeysB {α : Type} : List (String × α) → Bool
  | [] => true
  | (k, _) :: rest => !hasKey k rest && nodupKeysB rest

theorem jsSet_of_hasKey_false {α : Type} (l : List (String × α)) (k : String)
    (v : α) (h : hasKey k l = false) : jsSet l k v = l ++ [(k, v)] := by
  induction l with
  | nil => rfl
  | cons hd tl ih =>
    obtain ⟨a, b⟩ := hd
    rw [hasKey] at h
    simp only [Bool.or_eq_false_iff, decide_eq_false_iff_not] at h
    rw [jsSet, if_neg h.1]
    rw [ih h.2]
    simp

theorem hasKey_append {α : Type} (k : String) (a b : List (String × α)) :
    hasKey k (a ++ b) = (hasKey k a || hasKey k b) := by
  induction a with
  | nil => simp [hasKey]
  | cons hd tl ih =>
    obtain ⟨x, y⟩ := hd
    simp only [List.cons_append, hasKey, List.append_eq, ih, Bool.or_assoc]

theorem hasKey_jsSet {α : Type} (l : List (String × α)) (k x : String) (v : α) :
    hasKey x (jsSet l k v) = (hasKey x l || decide (k = x)) := by
  induction l with
  | nil => simp [jsSet, hasKey]
  | cons hd tl ih =>
    obtain ⟨a, b⟩ := hd
    rw [jsSet]
    by_cases hk : a = k
    · subst hk
      simp only [if_pos rfl, hasKey]
      cases hx : decide (a = x) <;> simp_all
    · rw [if_neg hk]
      simp only [hasKey, ih, Bool.or_assoc]

theorem nodupKeysB_jsSet {α : Type} (l : List (String × α)) (k : String) (v : α)
    (h : nodupKeysB l = true) : nodupKeysB (jsSet l k v) = true := by
  induction l with
  | nil => simp [jsSet, nodupKeysB, hasKey]
  | cons hd tl ih =>
    obtain ⟨a, b⟩ := hd
    rw [nodupKeysB] at h
    simp only [Bool.and_eq_true, Bool.not_eq_true'] at h
    rw [jsSet]
    by_cases hk : a = k
    · subst hk
      simp [nodupKeysB, h.1, h.2]
    · rw [if_neg hk]
      rw [nodupKeysB]
      simp only [Bool.and_eq_true, Bool.not_eq_true']
      refine ⟨?_, ih h.2⟩
      rw [hasKey_jsSet, h.1]
      simp [Ne.symm hk]

theorem jsGet_jsSet {α : Type} (l : List (String × α)) (k k' : String) (v : α) :
    jsGet (jsSet l k v) k' = if k = k' then some v else jsGet l k' := by
  induction l with
  | nil => simp [jsSet, jsGet]
  | cons hd tl ih =>
    obtain ⟨a, b⟩ := hd
    rw [jsSet]
    by_cases hk : a = k
    · subst hk
      by_cases hk' : a = k'
      · subst hk'
        simp [jsGet]
      · simp [jsGet, hk']
    · rw [if_neg hk]
      by_cases hk' : a = k'
      · subst hk'
        have : k ≠ a := fun h => hk h.symm
        simp [jsGet, this]
      · simp [jsGet, hk', ih]

theorem jsGet_eq_none_of_hasKey_false {α : Type} (l : List (String × α))
    (k : String) (h : hasKey k l = false) : jsGet l k = none := by
  induction l with
  | nil => rfl
  | cons hd tl ih =>
    obtain ⟨a, b⟩ := hd
    rw [hasKey] at h
    simp only [Bool.or_eq_false_iff, decide_eq_false_iff_not] at h
    rw [jsGet, if_neg h.1]
    exact ih h.2

theorem jsSpread_nil {α : Type} (a : List (String × α)) : jsSpread a [] = a := rfl

theorem jsSpread_cons {α : Type} (a : List (String × α)) (k : String) (v : α)
    (tl : List (String × α)) :
    jsSpread a ((k, v) :: tl) = jsSpread (jsSet a k v) tl := rfl

theorem jsGet_jsSpread {α : Type} (a b : List (String × α))
    (hb : nodupKeysB b = true) (k : String) :
    jsGet (jsSpread a b) k = (jsGet b k).or (jsGet a k) := by
  induction b generalizing a with
  | nil => simp [jsSpread, jsGet]
  | cons hd tl ih =>
    obtain ⟨kb, vb⟩ := hd
    rw [nodupKeysB] at hb
    simp only [Bool.and_eq_true, Bool.not_eq_true'] at hb
    rw [jsSpread_cons, ih _ hb.2, jsGet, jsGet_jsSet]
    by_cases hk : kb = k
    · subst hk
      rw [if_pos rfl, if_pos rfl]
      rw [jsGet_eq_none_of_hasKey_false tl kb hb.1]
      simp
    · rw [if_neg hk, if_neg hk]

theorem hasKey_false_of_mem {α : Type} {l : List (String × α)} {k : String}
    (h : hasKey k l = false) {p : String × α} (hp : p ∈ l) : p.1 ≠ k := by
  induction l with
  | nil => simp at hp
  | cons hd tl ih =>
    obtain ⟨a, b⟩ := hd
    rw [hasKey] at h
    simp only [Bool.or_eq_false_iff, decide_eq_false_iff_not] at h
    rcases List.mem_cons.mp hp with h1 | h2
    · subst h1
      exact h.1
    · exact ih h.2 h2

theorem jsSpread_append {α : Type} (a b : List (String × α))
    (hb : nodupKeysB b = true) (hfresh : ∀ p ∈ b, hasKey p.1 a = false) :
    jsSpread a b = a ++ b := by
  induction b generalizing a with
  | nil => simp [jsSpread]
  | cons hd tl ih =>
    obtain ⟨kb, vb⟩ := hd
    rw [nodupKeysB] at hb
    simp only [Bool.and_eq_true, Bool.not_eq_true'] at hb
    rw [jsSpread_cons, jsSet_of_hasKey_false a kb vb (hfresh (kb, vb) (by simp))]
    rw [ih _ hb.2]
    · simp
    · intro p hp
      have hne : p.1 ≠ kb := hasKey_false_of_mem hb.1 hp
      rw [hasKey_append, hfresh p (by simp [hp])]
      simp only [hasKey, Bool.false_or, Bool.or_false, decide_eq_false_iff_not]
      exact Ne.symm hne

theorem nodupKeysB_kvmGo (obj : List (String × VarNode))
    (accum : List (String × ThemeTree)) (h : nodupKeysB accum = true) :
    nodupKeysB (kvmGo accum obj) = true := by
  induction obj generalizing accum with
  | nil => simpa [kvmGo] using h
  | cons hd tl ih =>
    obtain ⟨key, n⟩ := hd
    rw [kvmGo]
    exact ih _ (nodupKeysB_jsSet _ _ _ h)

/-- Counterexample for C3: with `dark = \x7ba:\x7bb:"x"\x7d\x7d` and
`light = \x7ba:"y"\x7d`, the entry `vars.a` is the light variant's reference
`var(--a)`, not the dark variant's subtree — so the dark entry does not win
the shallow merge. -/
theorem vars_dark_precedence_counterexample :
    jsGet ((defaultExport [("a", ThemeTree.node [("b", ThemeTree.leaf "x")])]
        [("a", ThemeTree.leaf "y")]).vars) "a" = some (ThemeTree.leaf "var(--a)") ∧
    jsGet (keyVarMap (makeObjectVariables
        [("a", ThemeTree.node [("b", ThemeTree.leaf "x")])] "" "")) "a" =
      some (ThemeTree.node [("b", ThemeTree.leaf "var(--a-b)")]) ∧
    ThemeTree.leaf "var(--a)" ≠
      ThemeTree.node [("b", ThemeTree.leaf "var(--a-b)")] := by
  refine ⟨?_, ?_, fun h => ThemeTree.noConfusion h⟩
  · simp [defaultExport, makeObjectVariables, mkovGo, mkovNode, mkovName,
      keyVarMap, kvmGo, kvmVal, objLit2, jsSpread, jsSet, jsGet]
    decide
  · simp [makeObjectVariables, mkovGo, mkovNode, mkovName, keyVarMap, kvmGo,
      kvmVal, jsSet, jsGet]
    decide

/-- C3 (amended): `vars` is the shallow merge of the light reference map
over the dark reference map — `\x7b ...dark, ...light \x7d` lets the later
spread win, so where both variants define a top-level key the light
variant's entry appears in `vars`, and dark entries appear only for keys the
light map lacks. -/
theorem vars_shallow_merge_light_over_dark (dark light : List (String × ThemeTree))
    (k : String) :
    jsGet ((defaultExport dark light).vars) k =
      ((jsGet (keyVarMap (makeObjectVariables light "" "")) k).or
        (jsGet (keyVarMap (makeObjectVariables dark "" "")) k)) := by
  have hd : nodupKeysB (keyVarMap (makeObjectVariables dark "" "")) = true :=
    nodupKeysB_kvmGo _ [] rfl
  have hl : nodupKeysB (keyVarMap (makeObjectVariables light "" "")) = true :=
    nodupKeysB_kvmGo _ [] rfl
  show jsGet (objLit2 (keyVarMap (makeObjectVariables dark "" ""))
      (keyVarMap (makeObjectVariables light "" ""))) k = _
  rw [objLit2, jsGet_jsSpread _ _ hl, jsGet_jsSpread _ _ hd]
  simp [jsGet]

/-- A theme object is JS-representable: sibling keys are pairwise distinct
at every level (JS objects cannot carry duplicate keys). -/
def wfEntriesB : List (String × ThemeTree) → Bool
  | [] => true
  | (k, .leaf _) :: rest => !hasKey k rest && wfEntriesB rest
  | (k, .node sub) :: rest => !hasKey k rest && wfEntriesB sub && wfEntriesB rest

mutual

/-- Two theme values have the same shape: leaves face leaves, objects face
objects with entrywise equal keys and same-shaped values. -/
def sameShapeT : ThemeTree → ThemeTree → Bool
  | .leaf _, .leaf _ => true
  | .node a, .node b => sameShapeEntries a b
  | _, _ => false
termination_by t _ => sizeOf t

/-- Entrywise shape equality of two theme objects. -/
def sameShapeEntries : List (String × ThemeTree) → List (String × ThemeTree) → Bool
  | [], [] => true
  | (k1, t1) :: r1, (k2, t2) :: r2 =>
    k1 = k2 && sameShapeT t1 t2 && sameShapeEntries r1 r2
  | _, _ => false
termination_by l _ => sizeOf l

end

theorem hasKey_singleton {α : Type} (x k : String) (v : α) (h : x ≠ k) :
    hasKey x [(k, v)] = false := by
  simp only [hasKey, Bool.or_false, decide_eq_false_iff_not]
  exact fun hh => h hh.symm

theorem wf_nodup : ∀ (l : List (String × ThemeTree)), wfEntriesB l = true →
    nodupKeysB l = true := by
  intro l
  induction l with
  | nil => intro _; rfl
  | cons hd tl ih =>
    intro h
    obtain ⟨k, t⟩ := hd
    cases t with
    | leaf s =>
      rw [wfEntriesB] at h
      simp only [Bool.and_eq_true, Bool.not_eq_true'] at h
      rw [nodupKeysB]
      simp only [Bool.and_eq_true, Bool.not_eq_true']
      exact ⟨h.1, ih h.2⟩
    | node sub =>
      rw [wfEntriesB] at h
      simp only [Bool.and_eq_true, Bool.not_eq_true'] at h
      rw [nodupKeysB]
      simp only [Bool.and_eq_true, Bool.not_eq_true']
      exact ⟨h.1.1, ih h.2⟩

theorem mkovGo_accum : ∀ (obj : List (String × ThemeTree)) (pre suf : String)
    (accum : List (String × VarNode)),
    (∀ p ∈ obj, hasKey p.1 accum = false) → nodupKeysB obj = true →
    mkovGo pre suf accum obj = accum ++ mkovGo pre suf [] obj := by
  intro obj
  induction obj with
  | nil =>
    intro pre suf accum _ _
    simp [mkovGo]
  | cons hd tl ih =>
    intro pre suf accum hfresh hnodup
    obtain ⟨key, v⟩ := hd
    rw [nodupKeysB] at hnodup
    simp only [Bool.and_eq_true, Bool.not_eq_true'] at hnodup
    rw [mkovGo, mkovGo]
    rw [jsSet_of_hasKey_false _ _ _ (hfresh (key, v) (by simp))]
    rw [show jsSet ([] : List (String × VarNode)) key (mkovNode pre suf key v)
        = [(key, mkovNode pre suf key v)] from rfl]
    have hne : ∀ p ∈ tl, p.1 ≠ key := fun p hp => hasKey_false_of_mem hnodup.1 hp
    rw [ih pre suf (accum ++ [(key, mkovNode pre suf key v)])
      (fun p hp => by
        rw [hasKey_append, hfresh p (List.mem_cons_of_mem _ hp),
          hasKey_singleton p.1 key _ (hne p hp)]
        rfl)
      hnodup.2]
    rw [ih pre suf [(key, mkovNode pre suf key v)]
      (fun p hp => hasKey_singleton p.1 key _ (hne p hp)) hnodup.2]
    simp

theorem mkovGo_cons (pre suf key : String) (v : ThemeTree)
    (tl : List (String × ThemeTree)) (hfr : hasKey key tl = false)
    (hnodup : nodupKeysB tl = true) :
    mkovGo pre suf [] ((key, v) :: tl) =
      (key, mkovNode pre suf key v) :: mkovGo pre suf [] tl := by
  rw [mkovGo]
  rw [show jsSet ([] : List (String × VarNode)) key (mkovNode pre suf key v)
      = [(key, mkovNode pre suf key v)] from rfl]
  rw [mkovGo_accum tl pre suf _
    (fun p hp => hasKey_singleton p.1 key _ (hasKey_false_of_mem hfr hp)) hnodup]
  simp

theorem kvmGo_accum : ∀ (obj : List (String × VarNode))
    (accum : List (String × ThemeTree)),
    (∀ p ∈ obj, hasKey p.1 accum = false) → nodupKeysB obj = true →
    kvmGo accum obj = accum ++ kvmGo [] obj := by
  intro obj
  induction obj with
  | nil =>
    intro accum _ _
    simp [kvmGo]
  | cons hd tl ih =>
    intro accum hfresh hnodup
    obtain ⟨key, n⟩ := hd
    rw [nodupKeysB] at hnodup
    simp only [Bool.and_eq_true, Bool.not_eq_true'] at hnodup
    rw [kvmGo, kvmGo]
    rw [jsSet_of_hasKey_false _ _ _ (hfresh (key, n) (by simp))]
    rw [show jsSet ([] : List (String × ThemeTree)) key (kvmVal n)
        = [(key, kvmVal n)] from rfl]
    have hne : ∀ p ∈ tl, p.1 ≠ key := fun p hp => hasKey_false_of_mem hnodup.1 hp
    rw [ih (accum ++ [(key, kvmVal n)])
      (fun p hp => by
        rw [hasKey_append, hfresh p (List.mem_cons_of_mem _ hp),
          hasKey_singleton p.1 key _ (hne p hp)]
        rfl)
      hnodup.2]
    rw [ih [(key, kvmVal n)]
      (fun p hp => hasKey_singleton p.1 key _ (hne p hp)) hnodup.2]
    simp

theorem kvmGo_cons (key : String) (n : VarNode) (tl : List (String × VarNode))
    (hfr : hasKey key tl = false) (hnodup : nodupKeysB tl = true) :
    kvmGo [] ((key, n) :: tl) = (key, kvmVal n) :: kvmGo [] tl := by
  rw [kvmGo]
  rw [show jsSet ([] : List (String × ThemeTree)) key (kvmVal n)
      = [(key, kvmVal n)] from rfl]
  rw [kvmGo_accum tl _
    (fun p hp => hasKey_singleton p.1 key _ (hasKey_false_of_mem hfr hp)) hnodup]
  simp

theorem hasKey_map_fst {α β : Type} (l1 : List (String × α)) (l2 : List (String × β))
    (h : l1.map Prod.fst = l2.map Prod.fst) (k : String) :
    hasKey k l1 = hasKey k l2 := by
  induction l1 generalizing l2 with
  | nil =>
    have h2 : l2 = [] := by
      cases l2 with
      | nil => rfl
      | cons x xs => simp at h
    subst h2
    rfl
  | cons hd tl ih =>
    cases l2 with
    | nil => simp at h
    | cons hd2 tl2 =>
      obtain ⟨a, b⟩ := hd
      obtain ⟨a2, b2⟩ := hd2
      simp only [List.map_cons, List.cons.injEq] at h
      rw [hasKey, hasKey, h.1, ih tl2 h.2]

theorem mkov_keys (obj : List (String × ThemeTree)) (pre suf : String)
    (h : nodupKeysB obj = true) :
    (mkovGo pre suf [] obj).map Prod.fst = obj.map Prod.fst := by
  induction obj with
  | nil => simp [mkovGo]
  | cons hd tl ih =>
    obtain ⟨key, v⟩ := hd
    rw [nodupKeysB] at h
    simp only [Bool.and_eq_true, Bool.not_eq_true'] at h
    rw [mkovGo_cons pre suf key v tl h.1 h.2]
    simp [ih h.2]

theorem nodupKeysB_map_fst {α β : Type} (l1 : List (String × α))
    (l2 : List (String × β)) (h : l1.map Prod.fst = l2.map Prod.fst) :
    nodupKeysB l1 = nodupKeysB l2 := by
  induction l1 generalizing l2 with
  | nil =>
    have h2 : l2 = [] := by
      cases l2 with
      | nil => rfl
      | cons x xs => simp at h
    subst h2
    rfl
  | cons hd tl ih =>
    cases l2 with
    | nil => simp at h
    | cons hd2 tl2 =>
      obtain ⟨a, b⟩ := hd
      obtain ⟨a2, b2⟩ := hd2
      simp only [List.map_cons, List.cons.injEq] at h
      rw [nodupKeysB, nodupKeysB, h.1, ih tl2 h.2, hasKey_map_fst tl tl2 h.2]

/-- C5: for every JS-representable ThemeTree and any prefix and suffix, the
reference map `keyVarMap (makeObjectVariables obj pre suf)` has exactly the
same key structure as the input: same keys in the same order at every level,
leaves facing leaves and subtrees facing subtrees. -/
theorem keyVarMap_shape : ∀ (obj : List (String × ThemeTree)) (pre suf : String),
    wfEntriesB obj = true →
    sameShapeEntries (keyVarMap (makeObjectVariables obj pre suf)) obj = true
  | [], pre, suf, _ => by
    simp [makeObjectVariables, mkovGo, keyVarMap, kvmGo, sameShapeEntries]
  | (key, ThemeTree.leaf s) :: tl, pre, suf, h => by
    rw [wfEntriesB] at h
    simp only [Bool.and_eq_true, Bool.not_eq_true'] at h
    have hnd := wf_nodup tl h.2
    have hkeys := mkov_keys tl pre suf hnd
    rw [makeObjectVariables, mkovGo_cons pre suf key _ tl h.1 hnd, keyVarMap,
      kvmGo_cons key _ (mkovGo pre suf [] tl)
        (by rw [hasKey_map_fst _ tl hkeys]; exact h.1)
        (by rw [nodupKeysB_map_fst _ tl hkeys]; exact hnd)]
    have ih := keyVarMap_shape tl pre suf h.2
    rw [keyVarMap, makeObjectVariables] at ih
    simp [mkovNode, kvmVal, sameShapeEntries, sameShapeT, ih]
  | (key, ThemeTree.node sub) :: tl, pre, suf, h => by
    rw [wfEntriesB] at h
    simp only [Bool.and_eq_true, Bool.not_eq_true'] at h
    have hnd := wf_nodup tl h.2
    have hkeys := mkov_keys tl pre suf hnd
    rw [makeObjectVariables, mkovGo_cons pre suf key _ tl h.1.1 hnd, keyVarMap,
      kvmGo_cons key _ (mkovGo pre suf [] tl)
        (by rw [hasKey_map_fst _ tl hkeys]; exact h.1.1)
        (by rw [nodupKeysB_map_fst _ tl hkeys]; exact hnd)]
    have ihtl := keyVarMap_shape tl pre suf h.2
    have ihsub := keyVarMap_shape sub
      ((if pre ≠ "" then pre ++ "-" else "") ++ key) suf h.1.2
    rw [keyVarMap, makeObjectVariables] at ihtl
    rw [keyVarMap, makeObjectVariables] at ihsub
    simp only [ite_not] at ihsub
    simp [mkovNode, kvmVal, sameShapeEntries, sameShapeT, ihtl, ihsub]
termination_by obj => sizeOf obj

/-- Witness for C5 on the README example shape. -/
theorem keyVarMap_shape_witness :
    wfEntriesB [("text", ThemeTree.leaf "black"),
      ("grad", ThemeTree.node [("skeleton", ThemeTree.leaf "g")])] = true ∧
    sameShapeEntries
      (keyVarMap (makeObjectVariables [("text", ThemeTree.leaf "black"),
        ("grad", ThemeTree.node [("skeleton", ThemeTree.leaf "g")])] "" ""))
      [("text", ThemeTree.leaf "black"),
        ("grad", ThemeTree.node [("skeleton", ThemeTree.leaf "g")])] = true :=
  ⟨by simp [wfEntriesB, hasKey],
    keyVarMap_shape _ "" "" (by simp [wfEntriesB, hasKey])⟩

/-- A character that name derivation provably leaves untouched: ASCII (the
domain on which `jsToLowerChar` agrees with the real `toLowerCase`), not an
uppercase letter, underscore or space (no split, no lowercasing) and not a
hyphen (so hyphen-joins stay unambiguous). -/
def goodChar (c : Char) : Bool := c.toNat < 128 && !isBoundaryChar c && c ≠ '-'

/-- A key on which `jsNameToCssName` is the identity and which cannot collide
through hyphen-joining: nonempty and made of good characters. -/
def goodKey (k : String) : Bool := k ≠ "" && k.data.all goodChar

/-- A theme object whose keys are all good and pairwise distinct per level. -/
def goodEntriesB : List (String × ThemeTree) → Bool
  | [] => true
  | (k, .leaf _) :: rest => goodKey k && !hasKey k rest && goodEntriesB rest
  | (k, .node sub) :: rest =>
    goodKey k && !hasKey k rest && goodEntriesB sub && goodEntriesB rest

/-- Hyphen-join of name fragments, mirroring how `makeObjectVariables` folds
the key path into the generated property name. -/
def joinStr : List String → String
  | [] => ""
  | [a] => a
  | a :: rest => a ++ "-" ++ joinStr rest

/-- All property names (`var` fields) assigned to leaves of a variable tree,
in depth-first order. -/
def leafVars : List (String × VarNode) → List String
  | [] => []
  | (_, .strNode _ v _) :: rest => v :: leafVars rest
  | (_, .objNode sub _ _) :: rest => leafVars sub ++ leafVars rest

/-- The key paths of all leaves of a theme object, in depth-first order. -/
def leafPaths : List (String × ThemeTree) → List (List String)
  | [] => []
  | (k, .leaf _) :: rest => [k] :: leafPaths rest
  | (k, .node sub) :: rest =>
    (leafPaths sub).map (fun q => k :: q) ++ leafPaths rest

/-- The flattened value map as the spec describes it: one
`(--name, value)` pair per leaf, in depth-first key-encounter order, the
name being the raw parent path joined with the canonicalized leaf key. -/
def dfsLeaves (p : List String) : List (String × ThemeTree) → List (String × String)
  | [] => []
  | (k, .leaf v) :: rest =>
    ("--" ++ joinStr (p ++ [jsNameToCssName k]), v) :: dfsLeaves p rest
  | (k, .node sub) :: rest => dfsLeaves (p ++ [k]) sub ++ dfsLeaves p rest

/-- The depth-first leaf list of a string-leaved tree (keys as stored). -/
def leafKV : List (String × ThemeTree) → List (String × String)
  | [] => []
  | (k, .leaf v) :: rest => (k, v) :: leafKV rest
  | (k, .node sub) :: rest => leafKV sub ++ leafKV rest

/-- The prefix `makeObjectVariables` passes to the recursive call for the
entries nested under `key`: `prefixStr + key` with the raw key. -/
def childPre (pre key : String) : String :=
  (if pre ≠ "" then pre ++ "-" else "") ++ key

/-- The property name generated for `key` under running prefix `pre` by the
entry point (which passes no suffix). -/
def entryName (pre key : String) : String := "--" ++ mkovName pre "" key

/-- The flattened value map as the spec describes it, for arbitrary keys:
one `(--name, value)` pair per leaf with the exact generated name, in
depth-first key-encounter order. -/
def dfsLeavesS (pre : String) : List (String × ThemeTree) → List (String × String)
  | [] => []
  | (k, .leaf v) :: rest => (entryName pre k, v) :: dfsLeavesS pre rest
  | (k, .node sub) :: rest => dfsLeavesS (childPre pre k) sub ++ dfsLeavesS pre rest

/-- What `varColorMap ∘ makeObjectVariables` produces when no two sibling
names collide: the same tree re-keyed by the generated property names. -/
def vcmSpecS (pre : String) : List (String × ThemeTree) → List (String × ThemeTree)
  | [] => []
  | (k, .leaf v) :: rest => (entryName pre k, .leaf v) :: vcmSpecS pre rest
  | (k, .node sub) :: rest =>
    (entryName pre k, .node (vcmSpecS (childPre pre k) sub)) :: vcmSpecS pre rest

/-- The name `nm` differs from every generated sibling name of `l`. -/
def nameFreshB (pre nm : String) : List (String × ThemeTree) → Bool
  | [] => true
  | (k, _) :: rest => entryName pre k ≠ nm && nameFreshB pre nm rest

/-- No two siblings of any level receive the same generated property name
(`varColorMap` would otherwise overwrite one subtree with the other). -/
def sibNamesOkB (pre : String) : List (String × ThemeTree) → Bool
  | [] => true
  | (k, .leaf _) :: rest =>
    nameFreshB pre (entryName pre k) rest && sibNamesOkB pre rest
  | (k, .node sub) :: rest =>
    nameFreshB pre (entryName pre k) rest && sibNamesOkB (childPre pre k) sub &&
      sibNamesOkB pre rest

/-- Every key of the tree consists of ASCII characters: the domain on which
the `toLowerCase` model agrees with JS. -/
def asciiKeysB : List (String × ThemeTree) → Bool
  | [] => true
  | (k, .leaf _) :: rest =>
    k.data.all (fun c => c.toNat < 128) && asciiKeysB rest
  | (k, .node sub) :: rest =>
    k.data.all (fun c => c.toNat < 128) && asciiKeysB sub && asciiKeysB rest

theorem splitGo_no_boundary (cur : List Char) (l : List Char)
    (h : ∀ c ∈ l, isBoundaryChar c = false) : splitGo cur l = [cur ++ l] := by
  induction l generalizing cur with
  | nil => simp [splitGo]
  | cons c cs ih =>
    rw [splitGo, if_neg (by simp [h c (by simp)])]
    rw [ih (cur ++ [c]) (fun x hx => h x (by simp [hx]))]
    simp

theorem jsToLowerChar_good (c : Char) (h : isBoundaryChar c = false) :
    jsToLowerChar c = c := by
  rw [jsToLowerChar, if_neg]
  intro hc
  rw [isBoundaryChar] at h
  simp only [Bool.or_eq_false_iff, Bool.and_eq_false_iff,
    decide_eq_false_iff_not] at h
  rcases h.1.1 with h1 | h1
  · exact h1 hc.1
  · exact h1 hc.2

theorem goodKey_data_ne_nil (k : String) (h : goodKey k = true) : k.data ≠ [] := by
  rw [goodKey] at h
  simp only [Bool.and_eq_true, decide_eq_true_eq] at h
  intro hd
  exact h.1 (String.ext hd)

theorem goodKey_no_hyphen (k : String) (h : goodKey k = true) : '-' ∉ k.data := by
  rw [goodKey] at h
  simp only [Bool.and_eq_true, List.all_eq_true] at h
  intro hm
  have := h.2 '-' hm
  rw [goodChar] at this
  simp at this

theorem jsNameToCssName_good (k : String) (h : goodKey k = true) :
    jsNameToCssName k = k := by
  have hall : ∀ c ∈ k.data, isBoundaryChar c = false := by
    rw [goodKey] at h
    simp only [Bool.and_eq_true, List.all_eq_true] at h
    intro c hc
    have := h.2 c hc
    rw [goodChar] at this
    simp only [Bool.and_eq_true, Bool.not_eq_true'] at this
    exact this.1.2
  rw [jsNameToCssName]
  have hd : lookaheadSplit k.data = [k.data] := by
    cases hk : k.data with
    | nil => exact absurd hk (goodKey_data_ne_nil k h)
    | cons c cs =>
      rw [lookaheadSplit,
        splitGo_no_boundary [c] cs (fun x hx => hall x (by rw [hk]; simp [hx]))]
      simp
  rw [hd, joinSegs]
  have hmap : ∀ (l : List Char), (∀ c ∈ l, isBoundaryChar c = false) →
      l.map jsToLowerChar = l := by
    intro l
    induction l with
    | nil => intro _; rfl
    | cons c cs ih =>
      intro hl
      rw [List.map_cons, jsToLowerChar_good c (hl c (by simp)),
        ih (fun x hx => hl x (by simp [hx]))]
  rw [hmap k.data hall]

theorem joinStr_cons (a : String) (l : List String) (hl : l ≠ []) :
    joinStr (a :: l) = a ++ "-" ++ joinStr l := by
  cases l with
  | nil => exact absurd rfl hl
  | cons b r => rfl

theorem joinStr_ne_empty (l : List String) (hl : l ≠ [])
    (h : ∀ s ∈ l, goodKey s = true) : joinStr l ≠ "" := by
  cases l with
  | nil => exact absurd rfl hl
  | cons a r =>
    cases r with
    | nil =>
      have ha := h a (by simp)
      rw [goodKey] at ha
      simp only [Bool.and_eq_true, decide_eq_true_eq] at ha
      simpa [joinStr] using ha.1
    | cons b r2 =>
      rw [joinStr_cons a _ (by simp)]
      intro hC
      have hd := congrArg String.data hC
      rw [String.data_append, String.data_append] at hd
      have hne := goodKey_data_ne_nil a (h a (by simp))
      simp only [List.append_assoc, List.append_eq_nil] at hd
      · exact hne hd.1

theorem joinStr_append_last : ∀ (a : String) (r : List String) (x : String),
    joinStr ((a :: r) ++ [x]) = joinStr (a :: r) ++ "-" ++ x
  | a, [], x => by simp [joinStr]
  | a, b :: r2, x => by
    rw [List.cons_append, joinStr_cons a ((b :: r2) ++ [x]) (by simp),
      joinStr_cons a (b :: r2) (by simp), joinStr_append_last b r2 x]
    simp [String.append_assoc]

theorem joinStr_append_singleton (p : List String)
    (hp : ∀ s ∈ p, goodKey s = true) (x : String) :
    joinStr (p ++ [x]) = (if joinStr p ≠ "" then joinStr p ++ "-" else "") ++ x := by
  cases p with
  | nil => simp [joinStr, String.empty_append]
  | cons a r =>
    rw [if_pos (joinStr_ne_empty (a :: r) (by simp) hp), joinStr_append_last]

theorem joinSegs_nil : joinSegs [] = [] := rfl

theorem joinSegs_single (a : List Char) : joinSegs [a] = a := rfl

theorem joinSegs_cons2 (a b : List Char) (r : List (List Char)) :
    joinSegs (a :: b :: r) = a ++ '-' :: joinSegs (b :: r) := rfl

theorem hyphen_token_eq : ∀ (a b r1 r2 : List Char), '-' ∉ a → '-' ∉ b →
    a ++ '-' :: r1 = b ++ '-' :: r2 → a = b ∧ r1 = r2
  | [], b, r1, r2, _, hb, h => by
    cases b with
    | nil => simpa using h
    | cons c bs =>
      simp only [List.nil_append, List.cons_append, List.cons.injEq] at h
      refine absurd ?_ hb
      rw [← h.1]
      exact List.mem_cons_self '-' bs
  | c :: as_, b, r1, r2, ha, hb, h => by
    cases b with
    | nil =>
      simp only [List.cons_append, List.nil_append, List.cons.injEq] at h
      refine absurd ?_ ha
      rw [h.1]
      exact List.mem_cons_self '-' as_
    | cons d bs =>
      simp only [List.cons_append, List.cons.injEq] at h
      have ih := hyphen_token_eq as_ bs r1 r2
        (fun hm => ha (List.mem_cons_of_mem c hm))
        (fun hm => hb (List.mem_cons_of_mem d hm)) h.2
      exact ⟨by rw [h.1, ih.1], ih.2⟩

theorem joinSegs_inj : ∀ (L1 L2 : List (List Char)),
    (∀ t ∈ L1, t ≠ [] ∧ '-' ∉ t) → (∀ t ∈ L2, t ≠ [] ∧ '-' ∉ t) →
    joinSegs L1 = joinSegs L2 → L1 = L2
  | [], [], _, _, _ => rfl
  | [], [b], _, h2, h => by
    rw [joinSegs_nil, joinSegs_single] at h
    exact absurd h.symm (h2 b (by simp)).1
  | [], b :: c :: r, _, _, h => by
    rw [joinSegs_nil, joinSegs_cons2] at h
    have := congrArg List.length h
    simp only [List.length_nil, List.length_append, List.length_cons] at this
    omega
  | [a], [], h1, _, h => by
    rw [joinSegs_nil, joinSegs_single] at h
    exact absurd h (h1 a (by simp)).1
  | a :: c :: r, [], _, _, h => by
    rw [joinSegs_nil, joinSegs_cons2] at h
    have := congrArg List.length h
    simp only [List.length_nil, List.length_append, List.length_cons] at this
    omega
  | [a], [b], _, _, h => by
    rw [joinSegs_single, joinSegs_single] at h
    rw [h]
  | [a], b :: c :: r, h1, _, h => by
    rw [joinSegs_single, joinSegs_cons2] at h
    have hm : '-' ∈ a := by
      rw [h]
      exact List.mem_append_right _ (List.mem_cons_self _ _)
    exact absurd hm (h1 a (by simp)).2
  | a :: c :: r, [b], _, h2, h => by
    rw [joinSegs_single, joinSegs_cons2] at h
    have hm : '-' ∈ b := by
      rw [← h]
      exact List.mem_append_right _ (List.mem_cons_self _ _)
    exact absurd hm (h2 b (by simp)).2
  | a :: a2 :: r1, b :: b2 :: r2, h1, h2, h => by
    rw [joinSegs_cons2, joinSegs_cons2] at h
    have tk := hyphen_token_eq a b _ _ (h1 a (by simp)).2 (h2 b (by simp)).2 h
    have ih := joinSegs_inj (a2 :: r1) (b2 :: r2)
      (fun t ht => h1 t (List.mem_cons_of_mem a ht))
      (fun t ht => h2 t (List.mem_cons_of_mem b ht)) tk.2
    rw [tk.1, ih]
termination_by L1 _ => L1.length

theorem joinStr_data : ∀ (l : List String),
    (joinStr l).data = joinSegs (l.map String.data)
  | [] => rfl
  | [a] => rfl
  | a :: b :: r => by
    rw [joinStr_cons a (b :: r) (by simp), List.map_cons, List.map_cons,
      joinSegs_cons2, String.data_append, String.data_append,
      joinStr_data (b :: r), List.map_cons]
    simp [List.append_assoc]

theorem joinStr_inj (l1 l2 : List String) (h1 : ∀ s ∈ l1, goodKey s = true)
    (h2 : ∀ s ∈ l2, goodKey s = true) (h : joinStr l1 = joinStr l2) :
    l1 = l2 := by
  have hd := congrArg String.data h
  rw [joinStr_data, joinStr_data] at hd
  have hmap := joinSegs_inj (l1.map String.data) (l2.map String.data)
    (fun t ht => by
      obtain ⟨s, hs, rfl⟩ := List.mem_map.mp ht
      exact ⟨goodKey_data_ne_nil s (h1 s hs), goodKey_no_hyphen s (h1 s hs)⟩)
    (fun t ht => by
      obtain ⟨s, hs, rfl⟩ := List.mem_map.mp ht
      exact ⟨goodKey_data_ne_nil s (h2 s hs), goodKey_no_hyphen s (h2 s hs)⟩)
    hd
  exact List.map_injective_iff.mpr (fun a b hab => String.ext hab) hmap

theorem dashdash_cancel (a b : String) (h : "--" ++ a = "--" ++ b) : a = b := by
  have hd := congrArg String.data h
  rw [String.data_append, String.data_append] at hd
  exact String.ext (List.append_cancel_left hd)

theorem dash_name_inj (p q1 q2 : List String)
    (hp : ∀ s ∈ p, goodKey s = true) (hq1 : ∀ s ∈ q1, goodKey s = true)
    (hq2 : ∀ s ∈ q2, goodKey s = true)
    (h : "--" ++ joinStr (p ++ q1) = "--" ++ joinStr (p ++ q2)) : q1 = q2 := by
  have hj := dashdash_cancel _ _ h
  have hl := joinStr_inj (p ++ q1) (p ++ q2)
    (fun s hs => (List.mem_append.mp hs).elim (hp s) (hq1 s))
    (fun s hs => (List.mem_append.mp hs).elim (hp s) (hq2 s)) hj
  exact List.append_cancel_left hl

theorem good_nodup : ∀ (l : List (String × ThemeTree)),
    goodEntriesB l = true → nodupKeysB l = true
  | [], _ => rfl
  | (k, .leaf sv) :: rest, h => by
    rw [goodEntriesB] at h
    simp only [Bool.and_eq_true, Bool.not_eq_true'] at h
    rw [nodupKeysB]
    simp only [Bool.and_eq_true, Bool.not_eq_true']
    exact ⟨h.1.2, good_nodup rest h.2⟩
  | (k, .node sub) :: rest, h => by
    rw [goodEntriesB] at h
    simp only [Bool.and_eq_true, Bool.not_eq_true'] at h
    rw [nodupKeysB]
    simp only [Bool.and_eq_true, Bool.not_eq_true']
    exact ⟨h.1.1.2, good_nodup rest h.2⟩

theorem goodEntries_mem_key : ∀ (l : List (String × ThemeTree)),
    goodEntriesB l = true → ∀ pr ∈ l, goodKey pr.1 = true
  | [], _, pr, hpr => by simp at hpr
  | (k, .leaf sv) :: rest, h, pr, hpr => by
    rw [goodEntriesB] at h
    simp only [Bool.and_eq_true, Bool.not_eq_true'] at h
    rcases List.mem_cons.mp hpr with h1 | h2
    · rw [h1]
      exact h.1.1
    · exact goodEntries_mem_key rest h.2 pr h2
  | (k, .node sub) :: rest, h, pr, hpr => by
    rw [goodEntriesB] at h
    simp only [Bool.and_eq_true, Bool.not_eq_true'] at h
    rcases List.mem_cons.mp hpr with h1 | h2
    · rw [h1]
      exact h.1.1.1
    · exact goodEntries_mem_key rest h.2 pr h2

theorem varOf_mkovNode (pre suf key : String) (v : ThemeTree) :
    (mkovNode pre suf key v).varOf = "--" ++ mkovName pre suf key := by
  cases v <;> simp [mkovNode, VarNode.varOf]

theorem mkovName_eq (p : List String) (hp : ∀ s ∈ p, goodKey s = true)
    (key : String) :
    mkovName (joinStr p) "" key = joinStr (p ++ [jsNameToCssName key]) := by
  rw [mkovName, joinStr_append_singleton p hp (jsNameToCssName key)]
  simp [String.append_empty]

theorem leafVars_append : ∀ (a b : List (String × VarNode)),
    leafVars (a ++ b) = leafVars a ++ leafVars b
  | [], b => by simp [leafVars]
  | (k, .strNode v n r) :: tl, b => by
    rw [List.cons_append, leafVars, leafVars, leafVars_append tl b]
    simp
  | (k, .objNode sub n r) :: tl, b => by
    rw [List.cons_append, leafVars, leafVars, leafVars_append tl b]
    simp [List.append_assoc]

theorem leafPaths_head : ∀ (obj : List (String × ThemeTree)) (q : List String),
    q ∈ leafPaths obj → ∃ k r, q = k :: r ∧ hasKey k obj = true
  | [], q, hq => by simp [leafPaths] at hq
  | (k, .leaf sv) :: rest, q, hq => by
    rw [leafPaths] at hq
    rcases List.mem_cons.mp hq with h1 | h2
    · exact ⟨k, [], h1, by simp [hasKey]⟩
    · obtain ⟨k', r, hqe, hk⟩ := leafPaths_head rest q h2
      exact ⟨k', r, hqe, by rw [hasKey, hk]; simp⟩
  | (k, .node sub) :: rest, q, hq => by
    rw [leafPaths] at hq
    rcases List.mem_append.mp hq with h1 | h2
    · obtain ⟨q', hq', hqe⟩ := List.mem_map.mp h1
      exact ⟨k, q', hqe.symm, by simp [hasKey]⟩
    · obtain ⟨k', r, hqe, hk⟩ := leafPaths_head rest q h2
      exact ⟨k', r, hqe, by rw [hasKey, hk]; simp⟩

theorem leafPaths_good : ∀ (obj : List (String × ThemeTree)),
    goodEntriesB obj = true → ∀ q ∈ leafPaths obj, ∀ s ∈ q, goodKey s = true
  | [], _, q, hq => by simp [leafPaths] at hq
  | (k, .leaf sv) :: rest, h, q, hq => by
    rw [goodEntriesB] at h
    simp only [Bool.and_eq_true, Bool.not_eq_true'] at h
    rw [leafPaths] at hq
    rcases List.mem_cons.mp hq with h1 | h2
    · subst h1
      intro s hs
      rw [List.mem_singleton] at hs
      subst hs
      exact h.1.1
    · exact leafPaths_good rest h.2 q h2
  | (k, .node sub) :: rest, h, q, hq => by
    rw [goodEntriesB] at h
    simp only [Bool.and_eq_true, Bool.not_eq_true'] at h
    rw [leafPaths] at hq
    rcases List.mem_append.mp hq with h1 | h2
    · obtain ⟨q', hq', hqe⟩ := List.mem_map.mp h1
      subst hqe
      intro s hs
      rcases List.mem_cons.mp hs with h3 | h3
      · subst h3
        exact h.1.1.1
      · exact leafPaths_good sub h.1.2 q' hq' s h3
    · exact leafPaths_good rest h.2 q h2
termination_by obj => sizeOf obj

theorem leafPaths_nodup : ∀ (obj : List (String × ThemeTree)),
    goodEntriesB obj = true → (leafPaths obj).Nodup
  | [], _ => by simp [leafPaths]
  | (k, .leaf sv) :: rest, h => by
    rw [goodEntriesB] at h
    simp only [Bool.and_eq_true, Bool.not_eq_true'] at h
    rw [leafPaths, List.nodup_cons]
    refine ⟨?_, leafPaths_nodup rest h.2⟩
    intro hmem
    obtain ⟨k', r, hqe, hk⟩ := leafPaths_head rest [k] hmem
    have hkk : k = k' := by
      have := hqe
      simp only [List.cons.injEq] at this
      exact this.1
    rw [← hkk] at hk
    rw [h.1.2] at hk
    exact Bool.noConfusion hk
  | (k, .node sub) :: rest, h => by
    rw [goodEntriesB] at h
    simp only [Bool.and_eq_true, Bool.not_eq_true'] at h
    rw [leafPaths, List.nodup_append]
    refine ⟨?_, leafPaths_nodup rest h.2, ?_⟩
    · refine List.Nodup.map ?_ (leafPaths_nodup sub h.1.2)
      intro x y hxy
      simpa using hxy
    · intro a ha1 ha2
      obtain ⟨q', _, hqe⟩ := List.mem_map.mp ha1
      obtain ⟨k', r, hqe2, hk⟩ := leafPaths_head rest a ha2
      rw [← hqe] at hqe2
      simp only [List.cons.injEq] at hqe2
      rw [← hqe2.1] at hk
      rw [h.1.1.2] at hk
      exact Bool.noConfusion hk
termination_by obj => sizeOf obj

theorem dfsLeaves_names : ∀ (obj : List (String × ThemeTree)),
    goodEntriesB obj = true → ∀ (p : List String),
    (dfsLeaves p obj).map Prod.fst =
      (leafPaths obj).map (fun q => "--" ++ joinStr (p ++ q))
  | [], _, p => by simp [dfsLeaves, leafPaths]
  | (k, .leaf sv) :: rest, h, p => by
    rw [goodEntriesB] at h
    simp only [Bool.and_eq_true, Bool.not_eq_true'] at h
    rw [dfsLeaves, leafPaths, List.map_cons, List.map_cons,
      dfsLeaves_names rest h.2 p, jsNameToCssName_good k h.1.1]
  | (k, .node sub) :: rest, h, p => by
    rw [goodEntriesB] at h
    simp only [Bool.and_eq_true, Bool.not_eq_true'] at h
    rw [dfsLeaves, leafPaths, List.map_append, List.map_append,
      dfsLeaves_names rest h.2 p, dfsLeaves_names sub h.1.2 (p ++ [k]),
      List.map_map]
    congr 1
    apply List.map_congr_left
    intro q hq
    simp only [Function.comp]
    rw [List.append_assoc]
    rfl
termination_by obj => sizeOf obj

theorem dfs_names_nodup (obj : List (String × ThemeTree))
    (h : goodEntriesB obj = true) (p : List String)
    (hp : ∀ s ∈ p, goodKey s = true) :
    ((dfsLeaves p obj).map Prod.fst).Nodup := by
  rw [dfsLeaves_names obj h p]
  refine List.Nodup.map_on ?_ (leafPaths_nodup obj h)
  intro x hx y hy hxy
  exact dash_name_inj p x y hp (leafPaths_good obj h x hx)
    (leafPaths_good obj h y hy) hxy

theorem hasKey_false_iff_not_mem {α : Type} (l : List (String × α)) (k : String) :
    hasKey k l = false ↔ k ∉ l.map Prod.fst := by
  induction l with
  | nil => simp [hasKey]
  | cons hd tl ih =>
    obtain ⟨a, b⟩ := hd
    rw [hasKey]
    simp only [Bool.or_eq_false_iff, decide_eq_false_iff_not, ih,
      List.map_cons, List.mem_cons]
    constructor
    · rintro ⟨h1, h2⟩ h3
      rcases h3 with h3 | h3
      · exact h1 h3.symm
      · exact h2 h3
    · intro h3
      exact ⟨fun hak => h3 (Or.inl hak.symm), fun hm => h3 (Or.inr hm)⟩

theorem nodupKeysB_iff_nodup {α : Type} (l : List (String × α)) :
    nodupKeysB l = true ↔ (l.map Prod.fst).Nodup := by
  induction l with
  | nil => simp [nodupKeysB]
  | cons hd tl ih =>
    obtain ⟨a, b⟩ := hd
    rw [nodupKeysB]
    simp only [Bool.and_eq_true, Bool.not_eq_true', List.map_cons,
      List.nodup_cons, ih, hasKey_false_iff_not_mem]

theorem leafVars_mkov : ∀ (obj : List (String × ThemeTree)),
    goodEntriesB obj = true → ∀ (p : List String),
    (∀ s ∈ p, goodKey s = true) →
    leafVars (mkovGo (joinStr p) "" [] obj) = (dfsLeaves p obj).map Prod.fst
  | [], _, p, _ => by simp [mkovGo, leafVars, dfsLeaves]
  | (key, .leaf sv) :: rest, h, p, hp => by
    rw [goodEntriesB] at h
    simp only [Bool.and_eq_true, Bool.not_eq_true'] at h
    rw [mkovGo_cons _ _ key _ rest h.1.2 (good_nodup rest h.2)]
    rw [mkovNode, leafVars, dfsLeaves, List.map_cons,
      leafVars_mkov rest h.2 p hp, mkovName_eq p hp key]
  | (key, .node sub) :: rest, h, p, hp => by
    rw [goodEntriesB] at h
    simp only [Bool.and_eq_true, Bool.not_eq_true'] at h
    rw [mkovGo_cons _ _ key _ rest h.1.1.2 (good_nodup rest h.2)]
    have hpk : ∀ s ∈ p ++ [key], goodKey s = true := by
      intro s hs
      rcases List.mem_append.mp hs with h1 | h1
      · exact hp s h1
      · rw [List.mem_singleton] at h1
        subst h1
        exact h.1.1.1
    rw [mkovNode, leafVars, dfsLeaves, List.map_append]
    rw [show (if joinStr p ≠ "" then joinStr p ++ "-" else "") ++ key =
        joinStr (p ++ [key]) from (joinStr_append_singleton p hp key).symm]
    rw [leafVars_mkov sub h.1.2 (p ++ [key]) hpk, leafVars_mkov rest h.2 p hp]
termination_by obj => sizeOf obj

theorem nameFreshB_ne (pre nm : String) :
    ∀ (l : List (String × ThemeTree)), nameFreshB pre nm l = true →
    ∀ pr ∈ l, entryName pre pr.1 ≠ nm := by
  intro l
  induction l with
  | nil => intro _ pr hpr; simp at hpr
  | cons hd tl ih =>
    intro h pr hpr
    obtain ⟨k, t⟩ := hd
    rw [nameFreshB] at h
    simp only [Bool.and_eq_true, decide_eq_true_eq] at h
    rcases List.mem_cons.mp hpr with h1 | h1
    · subst h1
      exact h.1
    · exact ih h.2 pr h1

theorem nameFreshB_hasKey_false (pre k : String)
    (l : List (String × ThemeTree))
    (h : nameFreshB pre (entryName pre k) l = true) : hasKey k l = false := by
  induction l with
  | nil => rfl
  | cons hd tl ih =>
    obtain ⟨a, t⟩ := hd
    rw [nameFreshB] at h
    simp only [Bool.and_eq_true, decide_eq_true_eq] at h
    rw [hasKey]
    simp only [Bool.or_eq_false_iff, decide_eq_false_iff_not]
    exact ⟨fun hC => h.1 (by rw [hC]), ih h.2⟩

theorem sibNames_nodup : ∀ (pre : String) (l : List (String × ThemeTree)),
    sibNamesOkB pre l = true → nodupKeysB l = true
  | _, [], _ => rfl
  | pre, (k, .leaf _) :: rest, h => by
    rw [sibNamesOkB] at h
    simp only [Bool.and_eq_true] at h
    rw [nodupKeysB]
    simp only [Bool.and_eq_true, Bool.not_eq_true']
    exact ⟨nameFreshB_hasKey_false pre k rest h.1, sibNames_nodup pre rest h.2⟩
  | pre, (k, .node _) :: rest, h => by
    rw [sibNamesOkB] at h
    simp only [Bool.and_eq_true] at h
    rw [nodupKeysB]
    simp only [Bool.and_eq_true, Bool.not_eq_true']
    exact ⟨nameFreshB_hasKey_false pre k rest h.1.1, sibNames_nodup pre rest h.2⟩
termination_by _ l => sizeOf l

theorem vcm_mkovS : ∀ (obj : List (String × ThemeTree)) (pre : String),
    sibNamesOkB pre obj = true → ∀ (accum : List (String × ThemeTree)),
    (∀ pr ∈ obj, hasKey (entryName pre pr.1) accum = false) →
    vcmGo accum (mkovGo pre "" [] obj) = accum ++ vcmSpecS pre obj
  | [], pre, _, accum, _ => by simp [mkovGo, vcmGo, vcmSpecS]
  | (key, .leaf sv) :: rest, pre, h, accum, hfresh => by
    rw [sibNamesOkB] at h
    simp only [Bool.and_eq_true] at h
    rw [mkovGo_cons pre "" key _ rest (nameFreshB_hasKey_false pre key rest h.1)
      (sibNames_nodup pre rest h.2)]
    rw [vcmGo, varOf_mkovNode]
    rw [show ("--" ++ mkovName pre "" key) = entryName pre key from rfl]
    rw [show vcmVal (mkovNode pre "" key (ThemeTree.leaf sv)) =
        ThemeTree.leaf sv from by rw [mkovNode, vcmVal]]
    rw [jsSet_of_hasKey_false accum _ _
      (hfresh (key, ThemeTree.leaf sv) (by simp))]
    rw [vcm_mkovS rest pre h.2 _ (fun pr hpr => by
      rw [hasKey_append, hfresh pr (List.mem_cons_of_mem _ hpr),
        hasKey_singleton _ _ _
          (nameFreshB_ne pre (entryName pre key) rest h.1 pr hpr)]
      rfl)]
    rw [vcmSpecS]
    simp [List.append_assoc]
  | (key, .node sub) :: rest, pre, h, accum, hfresh => by
    rw [sibNamesOkB] at h
    simp only [Bool.and_eq_true] at h
    rw [mkovGo_cons pre "" key _ rest (nameFreshB_hasKey_false pre key rest h.1.1)
      (sibNames_nodup pre rest h.2)]
    rw [vcmGo, varOf_mkovNode]
    rw [show ("--" ++ mkovName pre "" key) = entryName pre key from rfl]
    rw [show vcmVal (mkovNode pre "" key (ThemeTree.node sub)) =
        ThemeTree.node (vcmGo []
          (mkovGo ((if pre ≠ "" then pre ++ "-" else "") ++ key)
            "" [] sub)) from by rw [mkovNode, vcmVal]]
    rw [show (if pre ≠ "" then pre ++ "-" else "") ++ key =
        childPre pre key from rfl]
    rw [show vcmGo [] (mkovGo (childPre pre key) "" [] sub) =
        vcmSpecS (childPre pre key) sub from by
      rw [vcm_mkovS sub (childPre pre key) h.1.2 [] (fun pr _ => rfl)]
      simp]
    rw [jsSet_of_hasKey_false accum _ _
      (hfresh (key, ThemeTree.node sub) (by simp))]
    rw [vcm_mkovS rest pre h.2 _ (fun pr hpr => by
      rw [hasKey_append, hfresh pr (List.mem_cons_of_mem _ hpr),
        hasKey_singleton _ _ _
          (nameFreshB_ne pre (entryName pre key) rest h.1.1 pr hpr)]
      rfl)]
    rw [vcmSpecS]
    simp [List.append_assoc]
termination_by obj _ => sizeOf obj

theorem leafKV_vcmSpecS : ∀ (pre : String) (obj : List (String × ThemeTree)),
    leafKV (vcmSpecS pre obj) = dfsLeavesS pre obj
  | pre, [] => by simp [vcmSpecS, leafKV, dfsLeavesS]
  | pre, (k, .leaf v) :: rest => by
    rw [vcmSpecS, leafKV, dfsLeavesS, leafKV_vcmSpecS pre rest]
  | pre, (k, .node sub) :: rest => by
    rw [vcmSpecS, leafKV, dfsLeavesS, leafKV_vcmSpecS (childPre pre k) sub,
      leafKV_vcmSpecS pre rest]
termination_by _ obj => sizeOf obj

theorem twGo_spec : ∀ (l : List (String × ThemeTree))
    (accum : List (String × String)),
    ((leafKV l).map Prod.fst).Nodup →
    (∀ k ∈ (leafKV l).map Prod.fst, hasKey k accum = false) →
    twGo accum l = accum ++ leafKV l
  | [], accum, _, _ => by simp [twGo, leafKV]
  | (key, .leaf sv) :: rest, accum, hnd, hfresh => by
    rw [leafKV] at hnd hfresh
    rw [List.map_cons] at hnd hfresh
    rw [List.nodup_cons] at hnd
    rw [twGo]
    rw [jsSet_of_hasKey_false accum key sv (hfresh key (by simp))]
    rw [twGo_spec rest (accum ++ [(key, sv)]) hnd.2 (fun k hk => by
      rw [hasKey_append, hfresh k (List.mem_cons_of_mem _ hk),
        hasKey_singleton k key sv (fun hC => hnd.1 (hC ▸ hk))]
      rfl)]
    rw [leafKV]
    simp [List.append_assoc]
  | (key, .node sub) :: rest, accum, hnd, hfresh => by
    rw [leafKV] at hnd hfresh
    rw [List.map_append] at hnd hfresh
    rw [List.nodup_append] at hnd
    rw [twGo]
    rw [show twGo [] sub = leafKV sub from by
      rw [twGo_spec sub [] hnd.1 (fun k _ => rfl)]
      simp]
    rw [jsSpread_append accum (leafKV sub)
      ((nodupKeysB_iff_nodup _).mpr hnd.1)
      (fun pr hpr => hfresh pr.1
        (List.mem_append_left _ (List.mem_map.mpr ⟨pr, hpr, rfl⟩)))]
    rw [twGo_spec rest (accum ++ leafKV sub) hnd.2.1 (fun k hk => by
      rw [hasKey_append, hfresh k (List.mem_append_right _ hk),
        (hasKey_false_iff_not_mem _ _).mpr (fun hmem => hnd.2.2 hmem hk)]
      rfl)]
    rw [leafKV]
    simp [List.append_assoc]
termination_by l _ => sizeOf l

theorem pipeline_flattenS (obj : List (String × ThemeTree))
    (hsib : sibNamesOkB "" obj = true)
    (hleaf : ((dfsLeavesS "" obj).map Prod.fst).Nodup) :
    treeWalk (varColorMap (makeObjectVariables obj "" "")) =
      dfsLeavesS "" obj := by
  have hvcm : vcmGo [] (mkovGo "" "" [] obj) = [] ++ vcmSpecS "" obj :=
    vcm_mkovS obj "" hsib [] (fun pr _ => rfl)
  rw [List.nil_append] at hvcm
  rw [treeWalk, varColorMap, makeObjectVariables, hvcm]
  have hkeys : ((leafKV (vcmSpecS "" obj)).map Prod.fst).Nodup := by
    rw [leafKV_vcmSpecS]
    exact hleaf
  rw [twGo_spec (vcmSpecS "" obj) [] hkeys (fun k _ => rfl)]
  rw [leafKV_vcmSpecS]
  simp

/-- Counterexample for C6: in the tree `\x7bA:"x", a:"y"\x7d` the two leaves
have distinct key paths, but both receive the property name `--a`, because
`A` is lowercased to `a` by the name deriver. -/
theorem property_name_collision_counterexample :
    leafVars (makeObjectVariables
      [("A", ThemeTree.leaf "x"), ("a", ThemeTree.leaf "y")] "" "") =
      ["--a", "--a"] ∧
    ¬ (["--a", "--a"] : List String).Nodup := by
  constructor
  · simp [makeObjectVariables, mkovGo, mkovNode, mkovName, leafVars, jsSet]
    decide
  · simp

/-- C6 (amended): for every ThemeTree whose keys are nonempty and contain no
uppercase letters, underscores, spaces or hyphens (so that name derivation
is the identity and hyphen-joining cannot merge distinct paths), with no
duplicate sibling keys, every property name `makeObjectVariables` assigns to
a leaf is unique within the variable tree. -/
theorem property_names_unique (obj : List (String × ThemeTree))
    (h : goodEntriesB obj = true) :
    (leafVars (makeObjectVariables obj "" "")).Nodup := by
  rw [makeObjectVariables]
  have h1 := leafVars_mkov obj h [] (by simp)
  rw [joinStr] at h1
  rw [h1]
  exact dfs_names_nodup obj h [] (by simp)

/-- Witness for C6 on a two-level tree with good keys. -/
theorem property_names_unique_witness :
    goodEntriesB [("text", ThemeTree.leaf "black"),
      ("grad", ThemeTree.node [("skeleton", ThemeTree.leaf "g")])] = true ∧
    (leafVars (makeObjectVariables [("text", ThemeTree.leaf "black"),
      ("grad", ThemeTree.node [("skeleton", ThemeTree.leaf "g")])] "" "")).Nodup :=
  ⟨by simp [goodEntriesB, hasKey]; decide,
    property_names_unique _ (by simp [goodEntriesB, hasKey]; decide)⟩

/-- C2: for every pair of ThemeTrees with ASCII keys (where the lowercase
model agrees with JS) whose generated property names are collision-free (no
two siblings of any level share a name, and the flattened leaf names of each
variant are pairwise distinct), the returned css string is exactly
`:root \x7b <light declarations> \x7d@media (prefers-color-scheme: dark)\x7b :root \x7b <dark declarations> \x7d \x7d`,
where each declarations section is the newline-joined `--name: value;` lines
of that variant's flattened value map, in depth-first key-encounter order of
that variant's ThemeTree.  camelCase, snake_case and space-separated keys
are all admitted. -/
theorem css_assembly (dark light : List (String × ThemeTree))
    (hAd : asciiKeysB dark = true) (hAl : asciiKeysB light = true)
    (hSd : sibNamesOkB "" dark = true) (hSl : sibNamesOkB "" light = true)
    (hLd : ((dfsLeavesS "" dark).map Prod.fst).Nodup)
    (hLl : ((dfsLeavesS "" light).map Prod.fst).Nodup) :
    (defaultExport dark light).css =
      ":root \x7b " ++
        String.intercalate "\n"
          ((dfsLeavesS "" light).map (fun kv => kv.1 ++ ": " ++ kv.2 ++ ";")) ++
        " \x7d@media (prefers-color-scheme: dark)\x7b :root \x7b " ++
        String.intercalate "\n"
          ((dfsLeavesS "" dark).map (fun kv => kv.1 ++ ": " ++ kv.2 ++ ";")) ++
        " \x7d \x7d" := by
  show ":root \x7b " ++
      objectToCss (treeWalk (varColorMap (makeObjectVariables light "" ""))) ++
      " \x7d" ++ "@media (prefers-color-scheme: dark)\x7b :root \x7b " ++
      objectToCss (treeWalk (varColorMap (makeObjectVariables dark "" ""))) ++
      " \x7d \x7d" = _
  rw [pipeline_flattenS light hSl hLl, pipeline_flattenS dark hSd hLd]
  rw [objectToCss, objectToCss]
  have hlit : (" \x7d" : String) ++
      "@media (prefers-color-scheme: dark)\x7b :root \x7b " =
      " \x7d@media (prefers-color-scheme: dark)\x7b :root \x7b " := by decide
  rw [← hlit]
  simp [String.append_assoc]

/-- Witness for C2 on trees with a camelCase and a snake_case key. -/
theorem css_assembly_witness :
    asciiKeysB [("fontWeight", ThemeTree.leaf "700"),
      ("bg_color", ThemeTree.leaf "black")] = true ∧
    asciiKeysB [("fontWeight", ThemeTree.leaf "400"),
      ("bg_color", ThemeTree.leaf "white")] = true ∧
    sibNamesOkB "" [("fontWeight", ThemeTree.leaf "700"),
      ("bg_color", ThemeTree.leaf "black")] = true ∧
    sibNamesOkB "" [("fontWeight", ThemeTree.leaf "400"),
      ("bg_color", ThemeTree.leaf "white")] = true ∧
    ((dfsLeavesS "" [("fontWeight", ThemeTree.leaf "700"),
      ("bg_color", ThemeTree.leaf "black")]).map Prod.fst).Nodup ∧
    ((dfsLeavesS "" [("fontWeight", ThemeTree.leaf "400"),
      ("bg_color", ThemeTree.leaf "white")]).map Prod.fst).Nodup ∧
    (defaultExport
        [("fontWeight", ThemeTree.leaf "700"),
          ("bg_color", ThemeTree.leaf "black")]
        [("fontWeight", ThemeTree.leaf "400"),
          ("bg_color", ThemeTree.leaf "white")]).css =
      ":root \x7b " ++
        String.intercalate "\n"
          ((dfsLeavesS "" [("fontWeight", ThemeTree.leaf "400"),
            ("bg_color", ThemeTree.leaf "white")]).map
            (fun kv => kv.1 ++ ": " ++ kv.2 ++ ";")) ++
        " \x7d@media (prefers-color-scheme: dark)\x7b :root \x7b " ++
        String.intercalate "\n"
          ((dfsLeavesS "" [("fontWeight", ThemeTree.leaf "700"),
            ("bg_color", ThemeTree.leaf "black")]).map
            (fun kv => kv.1 ++ ": " ++ kv.2 ++ ";")) ++
        " \x7d \x7d" :=
  ⟨by simp only [asciiKeysB]; decide,
    by simp only [asciiKeysB]; decide,
    by simp only [sibNamesOkB, nameFreshB]; decide,
    by simp only [sibNamesOkB, nameFreshB]; decide,
    by simp only [dfsLeavesS]; decide,
    by simp only [dfsLeavesS]; decide,
    css_assembly _ _
      (by simp only [asciiKeysB]; decide)
      (by simp only [asciiKeysB]; decide)
      (by simp only [sibNamesOkB, nameFreshB]; decide)
      (by simp only [sibNamesOkB, nameFreshB]; decide)
      (by simp only [dfsLeavesS]; decide)
      (by simp only [dfsLeavesS]; decide)⟩

/-- C7: `mergeThemes(\x7ba:1,b:\x7bc:2,d:3\x7d\x7d, \x7bb:\x7bc:9\x7d\x7d)`
returns `\x7ba:1, b:\x7bc:9, d:3\x7d\x7d`: keys only in the old tree
survive, shared subtree keys recurse, and the new value wins a leaf
conflict. -/
theorem mergeThemes_override_example :
    mergeThemes
      (.vobj [("a", .vnum 1), ("b", .vobj [("c", .vnum 2), ("d", .vnum 3)])])
      (.vobj [("b", .vobj [("c", .vnum 9)])]) =
    .ok (.vobj [("a", .vnum 1),
      ("b", .vobj [("c", .vnum 9), ("d", .vnum 3)])]) := by
  simp [mergeThemes, mergeGo, getProp, jsGet, jsSet, jsSpread, objLit2,
    spreadEntries, JSVal.truthy, JSVal.isObj, Except.map]

/-- C8 (code bug): when the new tree has a nested subtree under a key absent
from the old tree, the recursive call receives `undefined` for the old side;
reading a property of that `undefined` value throws a `TypeError` as soon as
the subtree contains a falsy (or object-valued) entry — here
`mergeThemes(\x7b\x7d, \x7bb:\x7bx:0\x7d\x7d)` throws instead of returning
the merged result.  (The same shape with a truthy non-object leaf does
succeed, because `newThemeObject[key] || oldThemeObject[key]` then
short-circuits before touching the `undefined` old side, which is why the
slip goes unnoticed in simple uses.) -/
theorem mergeThemes_throws_on_missing_old_subtree :
    mergeThemes (.vobj []) (.vobj [("b", .vobj [("x", .vnum 0)])]) =
      .error .typeError := by
  simp [mergeThemes, mergeGo, getProp, jsGet, jsSet, jsSpread, objLit2,
    spreadEntries, JSVal.truthy, JSVal.isObj, Except.map]
